import Mathlib

/-!
Verification of the reactive attribute system described by the repository
(typed, bounded attributes on Parameterized classes, widget bindings,
dependency watchers and query-string sync).  The repository ships the
engine only through example notebooks (src/examples/user_guide/Param.ipynb,
src/examples/reference/widgets/TextEditor.ipynb); the engine itself
(the param/panel libraries) is not part of src/, so each definition below
is modelled from the specification, as noted in its doc comment.
-/

namespace PanelSpec

/-- Attribute names are strings (e.g. "integer", "continent", "radius"). -/
abbrev Name := String

/-- Modelled from the spec: the values an attribute slot can hold.
Numbers are rationals so that defaults such as 3.14 and bounds such as
(7.5, 10) are exact; integer-kind attributes hold `vint`.  `vnone`
models the Python value None (e.g. `integer = param.Integer(default=None,
bounds=(0, 10))` in Param.ipynb). -/
inductive Value where
  | vnone
  | vint (i : Int)
  | vnum (q : Rat)
  | vstr (s : String)
  | vbool (b : Bool)
  deriving DecidableEq, Repr

/-- Modelled from the spec: the closed set of attribute kind tags
(numeric, string, boolean, choice-from-set, choice-multi, date,
range-pair, mapping, action, file-reference, composite), plus `integer`
(param.Integer, needed by the query codec) and `generic`
(param.Parameter, which accepts any value). -/
inductive Kind where
  | numeric
  | integer
  | stringKind
  | boolean
  | choice
  | multiChoice
  | date
  | rangePair
  | mapping
  | action
  | fileRef
  | composite
  | generic
  deriving DecidableEq, Repr

/-- Modelled from the spec: the error taxonomy of section 7. -/
inductive PError where
  | validationError
  | constantViolation
  | incompatibleControlError
  | decodeError
  | watcherError
  deriving DecidableEq, Repr

/-- Modelled from the spec: an AttributeSpec, declared once per class and
resolved through the hierarchy: name, kind, default, hard bounds,
advisory soft bounds, allowed values for choice kinds, the
write-once-after-init `constant` flag, the `precedence` visibility hint
and the doc string. -/
structure AttributeSpec where
  name : Name
  kind : Kind
  default : Value
  bounds : Option Rat × Option Rat := (none, none)
  softBounds : Option Rat × Option Rat := (none, none)
  allowedValues : Option (List Value) := none
  constant : Bool := false
  precedence : Rat := 1
  doc : String := ""
  deriving DecidableEq, Repr

/-- Look a name up in an association list of attribute values. -/
def lookupVal : List (Name × Value) → Name → Option Value
  | [], _ => none
  | p :: rest, n => if p.1 = n then some p.2 else lookupVal rest n

/-- Insert or replace the binding of a name in an attribute value map. -/
def upsertVal : List (Name × Value) → Name → Value → List (Name × Value)
  | [], n, v => [(n, v)]
  | p :: rest, n, v => if p.1 = n then (n, v) :: rest else p :: upsertVal rest n v

/-- Find the spec with a given name in a resolved spec list. -/
def findSpecIn : List AttributeSpec → Name → Option AttributeSpec
  | [], _ => none
  | s :: rest, n => if s.name = n then some s else findSpecIn rest n

/-- The numeric content of a value, if any (integers embed into Rat). -/
def numValue : Value → Option Rat
  | .vint i => some (i : Rat)
  | .vnum q => some q
  | _ => none

/-- Modelled from the spec: hard bounds are a closed interval and a `none`
bound means unbounded on that side. -/
def boundsOk (b : Option Rat × Option Rat) (q : Rat) : Bool :=
  (match b.1 with
   | none => true
   | some lo => decide (lo ≤ q)) &&
  (match b.2 with
   | none => true
   | some hi => decide (q ≤ hi))

/-- Modelled from the spec: kind compatibility of a candidate value.
Kinds the claims never exercise (date, range-pair, mapping, action,
file-reference, composite, multi-choice, generic) are modelled
permissively; choice kinds are constrained by allowedValues instead. -/
def kindOk : Kind → Value → Bool
  | .numeric, v => (numValue v).isSome
  | .integer, .vint _ => true
  | .integer, _ => false
  | .stringKind, .vstr _ => true
  | .stringKind, _ => false
  | .boolean, .vbool _ => true
  | .boolean, _ => false
  | _, _ => true

/-- Modelled from the spec (section 4.1): `validate(spec, candidateValue)`
checks the write-once `constant` flag against the construction window,
kind compatibility, closed-interval hard bounds and membership in
allowedValues.  The constant check comes first, so a post-construction
write to a constant attribute fails with ConstantViolation whatever the
value.  A None candidate is accepted exactly when the spec itself
declares a None default on a numeric kind (the examples declare
`param.Integer(default=None, bounds=(0, 10))`); bounds apply only to
non-None candidates. -/
def validate (spec : AttributeSpec) (pastConstruction : Bool) (v : Value) :
    Except PError Unit :=
  if spec.constant && pastConstruction then .error .constantViolation
  else if v = .vnone then
    (if spec.default = .vnone && (spec.kind == .numeric || spec.kind == .integer)
     then .ok () else .error .validationError)
  else if ¬ kindOk spec.kind v then .error .validationError
  else if (match numValue v with
           | some q => ! boundsOk spec.bounds q
           | none => false) then .error .validationError
  else if (match spec.allowedValues with
           | some l => ! l.contains v
           | none => false) then .error .validationError
  else .ok ()

/-- Modelled from the spec: the immutable resolved registry for one class
together with the mutable class-level attribute values (writes at class
level are themselves valid store writes). -/
structure Store where
  specs : List AttributeSpec
  classVals : List (Name × Value)

/-- Modelled from the spec: a Parameterized instance, owning per-instance
value overrides and the flag marking that construction has completed. -/
structure Inst where
  overrides : List (Name × Value)
  constructed : Bool
  deriving DecidableEq, Repr

/-- Resolve a name to its spec in a store. -/
def findSpec (st : Store) (n : Name) : Option AttributeSpec :=
  findSpecIn st.specs n

/-- Modelled from the spec: one change event `(name, oldValue, newValue)`
emitted to the dependency graph by a successful set. -/
structure ChangeEvent where
  attr : Name
  oldValue : Option Value
  newValue : Value
  deriving DecidableEq, Repr

/-- Modelled from the spec: `get(instance, name)`.  A per-instance
override wins, then the class-level value, then the spec default. -/
def get (st : Store) (i : Inst) (n : Name) : Option Value :=
  match lookupVal i.overrides n with
  | some v => some v
  | none =>
    match lookupVal st.classVals n with
    | some v => some v
    | none => (findSpec st n).map AttributeSpec.default

/-- Modelled from the spec: class-level read, used when no instance is
involved (class attribute access in the notebook). -/
def getClass (st : Store) (n : Name) : Option Value :=
  match lookupVal st.classVals n with
  | some v => some v
  | none => (findSpec st n).map AttributeSpec.default

/-- Modelled from the spec (section 4.2): `set(instance, name, value)`
validates against the registry and, on success, records the change and
emits exactly one change event before returning. -/
def set (st : Store) (i : Inst) (n : Name) (v : Value) :
    Except PError (Inst × ChangeEvent) :=
  match findSpec st n with
  | none => .error .validationError
  | some spec =>
    match validate spec i.constructed v with
    | .error e => .error e
    | .ok _ =>
      .ok ({ i with overrides := upsertVal i.overrides n v },
           { attr := n, oldValue := get st i n, newValue := v })

/-- Run a set and keep the previous instance on failure: the result is
the (possibly unchanged) instance, the emitted event if any, and the
error if any. -/
def applySet (st : Store) (i : Inst) (n : Name) (v : Value) :
    Inst × Option ChangeEvent × Option PError :=
  match set st i n v with
  | .ok (j, ev) => (j, some ev, none)
  | .error e => (i, none, some e)

/-- Modelled from the spec: a class-level write is a valid store write:
it goes through the same `validate` and emits the same shape of change
event, updating the class-level value read by every instance that has
not overridden the attribute. -/
def setClass (st : Store) (n : Name) (v : Value) :
    Except PError (Store × ChangeEvent) :=
  match findSpec st n with
  | none => .error .validationError
  | some spec =>
    match validate spec true v with
    | .error e => .error e
    | .ok _ =>
      .ok ({ st with classVals := upsertVal st.classVals n v },
           { attr := n, oldValue := getClass st n, newValue := v })

/-- A freshly allocated instance, still inside its construction window. -/
def freshInst : Inst := { overrides := [], constructed := false }

/-- Apply the initial value mapping of a construction, one set per
attribute, inside the construction window. -/
def constructLoop (st : Store) (i : Inst) :
    List (Name × Value) → Except PError Inst
  | [] => .ok { i with constructed := true }
  | (n, v) :: rest =>
    match set st i n v with
    | .error e => .error e
    | .ok (j, _) => constructLoop st j rest

/-- Modelled from the spec (section 4.2): construction accepts an initial
value mapping; every write of it happens inside the construction window
(so constant attributes admit exactly this one successful set), and the
finished instance is marked past construction. -/
def construct (st : Store) (inits : List (Name × Value)) : Except PError Inst :=
  constructLoop st freshInst inits

/-! Helper lemmas about the value maps and the construction loop. -/

theorem lookupVal_upsertVal_self (m : List (Name × Value)) (n : Name) (v : Value) :
    lookupVal (upsertVal m n v) n = some v := by
  induction m with
  | nil => simp [upsertVal, lookupVal]
  | cons p rest ih =>
    by_cases h : p.1 = n
    · simp [upsertVal, h, lookupVal]
    · simp [upsertVal, h, lookupVal, ih]

theorem lookupVal_upsertVal_ne (m : List (Name × Value)) (k n : Name) (v : Value)
    (h : k ≠ n) : lookupVal (upsertVal m k v) n = lookupVal m n := by
  have hnk : ¬ n = k := fun he => h he.symm
  induction m with
  | nil => simp [upsertVal, lookupVal, h]
  | cons p rest ih =>
    by_cases hp : p.1 = k
    · simp [upsertVal, hp, lookupVal, h, hnk]
    · by_cases hn : p.1 = n
      · simp [upsertVal, hp, lookupVal, hn, hnk]
      · simp [upsertVal, hp, lookupVal, hn, ih]

theorem set_ok_fields (st : Store) (i : Inst) (n : Name) (v : Value)
    (r : Inst × ChangeEvent) (h : set st i n v = .ok r) :
    r.1.overrides = upsertVal i.overrides n v ∧ r.1.constructed = i.constructed := by
  unfold set at h
  split at h
  · exact absurd h (by simp)
  · split at h
    · exact absurd h (by simp)
    · simp only [Except.ok.injEq] at h
      rw [← h]
      exact ⟨rfl, rfl⟩

theorem constructLoop_constructed (st : Store) (inits : List (Name × Value))
    (i j : Inst) (h : constructLoop st i inits = .ok j) : j.constructed = true := by
  induction inits generalizing i with
  | nil =>
    simp [constructLoop] at h
    simp [← h]
  | cons p rest ih =>
    obtain ⟨n, v⟩ := p
    simp only [constructLoop] at h
    cases hs : set st i n v with
    | error e => rw [hs] at h; exact absurd h (by simp)
    | ok r => rw [hs] at h; exact ih r.1 h

theorem constructLoop_not_mentioned (st : Store) (inits : List (Name × Value))
    (i j : Inst) (n : Name) (h : constructLoop st i inits = .ok j)
    (hn : n ∉ inits.map Prod.fst) :
    lookupVal j.overrides n = lookupVal i.overrides n := by
  induction inits generalizing i with
  | nil =>
    simp [constructLoop] at h
    simp [← h]
  | cons p rest ih =>
    obtain ⟨m, v⟩ := p
    simp only [List.map_cons, List.mem_cons] at hn
    push_neg at hn
    simp only [constructLoop] at h
    cases hs : set st i m v with
    | error e => rw [hs] at h; exact absurd h (by simp)
    | ok r =>
      rw [hs] at h
      have hr := ih r.1 h hn.2
      rw [hr, (set_ok_fields st i m v r hs).1,
        lookupVal_upsertVal_ne _ _ _ _ (fun he => hn.1 he.symm)]

theorem constructLoop_sets (st : Store) (inits : List (Name × Value))
    (i j : Inst) (n : Name) (v : Value) (h : constructLoop st i inits = .ok j)
    (hnd : (inits.map Prod.fst).Nodup) (hmem : (n, v) ∈ inits) :
    lookupVal j.overrides n = some v := by
  induction inits generalizing i with
  | nil => exact absurd hmem (by simp)
  | cons p rest ih =>
    obtain ⟨m, w⟩ := p
    simp only [List.map_cons, List.nodup_cons] at hnd
    simp only [constructLoop] at h
    cases hs : set st i m w with
    | error e => rw [hs] at h; exact absurd h (by simp)
    | ok r =>
      rw [hs] at h
      rcases List.mem_cons.1 hmem with heq | hrest
      · obtain ⟨hm, hw⟩ := Prod.mk.injEq .. ▸ heq
        subst hm; subst hw
        rw [constructLoop_not_mentioned st rest r.1 j n h hnd.1,
          (set_ok_fields st i n v r hs).1, lookupVal_upsertVal_self]
      · exact ih r.1 h hnd.2 hrest
/-- A set whose validation fails returns exactly that error. -/
theorem set_eq_error (st : Store) (i : Inst) (n : Name) (v : Value)
    (spec : AttributeSpec) (e : PError) (hspec : findSpec st n = some spec)
    (hval : validate spec i.constructed v = .error e) :
    set st i n v = .error e := by
  simp only [set, hspec, hval]

/-- A set whose validation succeeds stores the value and emits the
change event. -/
theorem set_eq_ok (st : Store) (i : Inst) (n : Name) (v : Value)
    (spec : AttributeSpec) (hspec : findSpec st n = some spec)
    (hval : validate spec i.constructed v = .ok ()) :
    set st i n v = .ok ({ i with overrides := upsertVal i.overrides n v },
      { attr := n, oldValue := get st i n, newValue := v }) := by
  simp only [set, hspec, hval]

/-- A failed set leaves the instance untouched and reports the error. -/
theorem applySet_eq_error (st : Store) (i : Inst) (n : Name) (v : Value)
    (spec : AttributeSpec) (e : PError) (hspec : findSpec st n = some spec)
    (hval : validate spec i.constructed v = .error e) :
    applySet st i n v = (i, none, some e) := by
  simp only [applySet, set_eq_error st i n v spec e hspec hval]

/-- On any out-of-bounds numeric candidate, validate reports a
ValidationError (kind-compatibility failures report the same error). -/
theorem validate_out_of_bounds (spec : AttributeSpec) (b : Bool) (v : Value)
    (q lo hi : Rat) (hb : spec.bounds = (some lo, some hi))
    (hc : spec.constant = false) (hq : numValue v = some q)
    (hout : q < lo ∨ hi < q) :
    validate spec b v = .error .validationError := by
  have hvn : v ≠ .vnone := by
    intro h; subst h; simp [numValue] at hq
  have hbad : boundsOk spec.bounds q = false := by
    rw [hb]
    rcases hout with h | h
    · have hd : decide (lo ≤ q) = false := decide_eq_false (not_le.2 h)
      simp [boundsOk, hd]
    · have hd : decide (q ≤ hi) = false := decide_eq_false (not_le.2 h)
      simp [boundsOk, hd]
  unfold validate
  rw [hc]
  cases hk : kindOk spec.kind v <;> simp [hvn, hq, hbad, hk]

/-- The spec of QueryExample.integer in Param.ipynb:
`integer = param.Integer(default=None, bounds=(0, 10))`. -/
def integerSpec : AttributeSpec :=
  { name := "integer", kind := .integer, default := .vnone,
    bounds := (some 0, some 10) }

/-- The spec of QueryExample.string in Param.ipynb:
`string = param.String(default="A string")`. -/
def stringSpec : AttributeSpec :=
  { name := "string", kind := .stringKind, default := .vstr "A string" }

/-- The concrete store of the QueryExample class in Param.ipynb. -/
def queryStore : Store :=
  { specs := [integerSpec, stringSpec], classVals := [] }

/-- A fully constructed QueryExample-like instance with no overrides. -/
def qinst : Inst := { overrides := [], constructed := true }

/-- C2: for every attribute whose spec carries hard bounds [lo, hi] and
every candidate value v with v < lo or v > hi, `set` fails with
ValidationError and the stored value is unchanged, so a subsequent `get`
returns the value held before the failed set.  (The constant-flag check
precedes value validation, so the claim is proved for non-constant
attributes; a post-construction write to a constant attribute fails
earlier, with ConstantViolation.) -/
theorem set_out_of_bounds_rejected
    (st : Store) (i : Inst) (spec : AttributeSpec) (n : Name) (v : Value)
    (q lo hi : Rat)
    (hspec : findSpec st n = some spec)
    (hb : spec.bounds = (some lo, some hi))
    (hc : spec.constant = false)
    (hq : numValue v = some q)
    (hout : q < lo ∨ hi < q) :
    applySet st i n v = (i, none, some .validationError) ∧
    get st (applySet st i n v).1 n = get st i n := by
  have h := applySet_eq_error st i n v spec .validationError hspec
    (validate_out_of_bounds spec i.constructed v q lo hi hb hc hq hout)
  rw [h]
  exact ⟨rfl, rfl⟩

/-- Witness for C2 at the QueryExample integer attribute: setting 15 on
bounds (0, 10) fails with ValidationError and get still returns the
default None. -/
theorem set_out_of_bounds_rejected_witness :
    applySet queryStore qinst "integer" (.vint 15) =
      (qinst, none, some .validationError) ∧
    get queryStore (applySet queryStore qinst "integer" (.vint 15)).1 "integer" =
      get queryStore qinst "integer" :=
  set_out_of_bounds_rejected queryStore qinst integerSpec
    "integer" (.vint 15) 15 0 10
    (by decide) (by decide) (by decide) (by decide) (Or.inr (by decide))

/-- The spec of BaseClass.y in Param.ipynb:
`y = param.Parameter(default="Not editable", constant=True)`. -/
def ySpec : AttributeSpec :=
  { name := "y", kind := .generic, default := .vstr "Not editable",
    constant := true }

/-- The concrete store of the BaseClass constant attribute. -/
def constStore : Store := { specs := [ySpec], classVals := [] }

/-- C3: for every attribute declared constant, exactly one successful set
is permitted during the construction window of its owning instance (the
initial value mapping writes each attribute once, inside the window);
every set attempted after construction completes fails with
ConstantViolation and leaves the stored value unchanged. -/
theorem constant_write_once_then_violation
    (st : Store) (spec : AttributeSpec) (n : Name)
    (hspec : findSpec st n = some spec)
    (hconst : spec.constant = true) :
    (∀ inits j v, (inits.map Prod.fst).Nodup → (n, v) ∈ inits →
       construct st inits = .ok j →
       j.constructed = true ∧ get st j n = some v) ∧
    (∀ (i : Inst) (v : Value), i.constructed = true →
       applySet st i n v = (i, none, some .constantViolation) ∧
       get st (applySet st i n v).1 n = get st i n) := by
  constructor
  · intro inits j v hnd hmem h
    refine ⟨constructLoop_constructed st inits freshInst j h, ?_⟩
    have hl := constructLoop_sets st inits freshInst j n v h hnd hmem
    unfold get
    rw [hl]
  · intro i v hco
    have hval : validate spec i.constructed v = .error .constantViolation := by
      unfold validate
      rw [hconst, hco]
      simp
    have h := applySet_eq_error st i n v spec .constantViolation hspec hval
    rw [h]
    exact ⟨rfl, rfl⟩

/-- Witness for C3 at the BaseClass `y` attribute: construction sets it
once, and a post-construction set fails with ConstantViolation leaving
the instance unchanged. -/
theorem constant_write_once_then_violation_witness :
    ({ overrides := [("y", Value.vstr "edited")], constructed := true } : Inst).constructed
        = true ∧
    get constStore { overrides := [("y", Value.vstr "edited")], constructed := true } "y"
        = some (.vstr "edited") ∧
    applySet constStore { overrides := [("y", Value.vstr "edited")], constructed := true }
        "y" (.vstr "again") =
      ({ overrides := [("y", Value.vstr "edited")], constructed := true }, none,
       some .constantViolation) := by
  have h := constant_write_once_then_violation constStore ySpec "y" (by decide) rfl
  have h1 := h.1 [("y", Value.vstr "edited")]
    { overrides := [("y", Value.vstr "edited")], constructed := true }
    (.vstr "edited") (by decide) (by simp) (by rfl)
  have h2 := h.2 { overrides := [("y", Value.vstr "edited")], constructed := true }
    (.vstr "again") rfl
  exact ⟨h1.1, h1.2, h2.1⟩

/-- C9: a set performed on the Parameterized class itself is a valid
store write: it goes through the same `validate` as an instance-level
set, emits the same shape of change event (which drives the same watcher
propagation), and afterwards every instance that has not overridden the
attribute reads the new class-level value from `get`. -/
theorem class_level_set_propagates
    (st : Store) (spec : AttributeSpec) (n : Name) (v : Value)
    (hspec : findSpec st n = some spec) :
    (∀ e : PError, setClass st n v = .error e ↔ validate spec true v = .error e) ∧
    (∀ stp ev, setClass st n v = .ok (stp, ev) →
       ev.attr = n ∧ ev.newValue = v ∧
       ∀ i : Inst, lookupVal i.overrides n = none → get stp i n = some v) := by
  constructor
  · intro e
    simp only [setClass, hspec]
    cases hv : validate spec true v with
    | error f => simp
    | ok u => simp
  · intro stp ev h
    simp only [setClass, hspec] at h
    split at h
    · exact absurd h (by simp)
    · simp only [Except.ok.injEq, Prod.mk.injEq] at h
      refine ⟨by rw [← h.2], by rw [← h.2], ?_⟩
      intro i hov
      unfold get
      rw [hov, ← h.1]
      simp only []
      rw [lookupVal_upsertVal_self]

/-- Witness for C9: setting the class-level QueryExample integer to 5
succeeds, emits the event, and a non-overriding instance reads 5. -/
theorem class_level_set_propagates_witness :
    ({ attr := "integer", oldValue := some Value.vnone,
       newValue := Value.vint 5 } : ChangeEvent).attr = "integer" ∧
    ({ attr := "integer", oldValue := some Value.vnone,
       newValue := Value.vint 5 } : ChangeEvent).newValue = .vint 5 ∧
    get { specs := queryStore.specs, classVals := [("integer", Value.vint 5)] }
        qinst "integer" = some (.vint 5) := by
  have h := (class_level_set_propagates queryStore integerSpec
    "integer" (.vint 5) (by decide)).2
    { specs := queryStore.specs, classVals := [("integer", Value.vint 5)] }
    { attr := "integer", oldValue := some Value.vnone, newValue := Value.vint 5 }
    (by rfl)
  exact ⟨h.1, h.2.1, h.2.2 qinst (by decide)⟩

/-- C10: a numeric attribute may be declared with default None together
with hard bounds; None is then accepted as a stored value: validation
accepts it in and after construction, construction with the None default
succeeds and `get` returns None, and an explicit set of None succeeds,
even though None is not inside the closed bounds interval (bounds apply
only to non-None candidates, as proved for C2). -/
theorem none_default_allows_none_value
    (st : Store) (spec : AttributeSpec) (n : Name)
    (hspec : findSpec st n = some spec)
    (hkind : spec.kind = .integer ∨ spec.kind = .numeric)
    (hdef : spec.default = .vnone)
    (hc : spec.constant = false)
    (hclass : lookupVal st.classVals n = none) :
    (∀ b, validate spec b .vnone = .ok ()) ∧
    (∃ j, construct st [] = .ok j ∧ get st j n = some .vnone) ∧
    (∀ i : Inst, (applySet st i n .vnone).2.2 = none ∧
       get st (applySet st i n .vnone).1 n = some .vnone) := by
  have hval : ∀ b, validate spec b .vnone = .ok () := by
    intro b
    unfold validate
    rcases hkind with hk | hk <;> simp [hc, hdef, hk]
  refine ⟨hval, ⟨{ overrides := [], constructed := true }, rfl, ?_⟩, ?_⟩
  · unfold get
    rw [hclass, hspec]
    simp [lookupVal, hdef]
  · intro i
    have hset := set_eq_ok st i n .vnone spec hspec (hval i.constructed)
    constructor
    · simp only [applySet, hset]
    · simp only [applySet, hset]
      unfold get
      simp only []
      rw [lookupVal_upsertVal_self]

/-- Witness for C10 at the QueryExample integer attribute (default None,
bounds (0, 10)): a constructed instance reads None and an explicit set of
None succeeds. -/
theorem none_default_allows_none_value_witness :
    validate integerSpec true .vnone = .ok () ∧
    (∃ j, construct queryStore [] = .ok j ∧
        get queryStore j "integer" = some .vnone) ∧
    (applySet queryStore qinst "integer" .vnone).2.2 = none := by
  have h := none_default_allows_none_value queryStore integerSpec
    "integer" (by decide) (Or.inl rfl) rfl rfl (by decide)
  exact ⟨h.1 true, h.2.1, (h.2.2 qinst).1⟩

/-- Modelled from the spec (section 6): the character for one decimal
digit of the trivial integer codec. -/
def digitChar (d : Nat) : Char := Char.ofNat (48 + d)

/-- Modelled from the spec (section 6): parse one decimal digit
character; non-digit characters are malformed. -/
def charDigit (c : Char) : Option Nat :=
  if 48 ≤ c.toNat && c.toNat ≤ 57 then some (c.toNat - 48) else none

/-- Fuel-bounded little-endian base-10 digit expansion (fuel n is always
enough fuel for n). -/
def toDigitsAux : Nat → Nat → List Nat
  | 0, _ => []
  | fuel + 1, n => if n = 0 then [] else n % 10 :: toDigitsAux fuel (n / 10)

/-- The little-endian base-10 digits of a natural number. -/
def natDigits (n : Nat) : List Nat := toDigitsAux n n

theorem toDigitsAux_eq (fuel : Nat) :
    ∀ n, n ≤ fuel → toDigitsAux fuel n = Nat.digits 10 n := by
  induction fuel with
  | zero =>
    intro n hn
    interval_cases n
    simp [toDigitsAux]
  | succ f ih =>
    intro n hn
    by_cases h0 : n = 0
    · subst h0; simp [toDigitsAux]
    · have hpos : 0 < n := Nat.pos_of_ne_zero h0
      have hdiv : n / 10 ≤ f := by
        have := Nat.div_lt_self hpos (by norm_num : 1 < 10)
        omega
      rw [toDigitsAux, if_neg h0, ih (n / 10) hdiv,
        ← Nat.digits_def' (by norm_num : 1 < 10) hpos]

theorem natDigits_eq (n : Nat) : natDigits n = Nat.digits 10 n :=
  toDigitsAux_eq n n le_rfl

/-- Modelled from the spec (section 6): encode a natural number as its
decimal character string (big-endian). -/
def encodeNatChars (n : Nat) : List Char :=
  if n = 0 then [Char.ofNat 48] else (natDigits n).reverse.map digitChar

/-- Parse a big-endian run of decimal digit characters. -/
def parseDigits : List Char → Option (List Nat)
  | [] => some []
  | c :: rest =>
    match charDigit c, parseDigits rest with
    | some d, some ds => some (d :: ds)
    | _, _ => none

/-- Modelled from the spec (section 6): decode a decimal character
string; empty or non-digit input is malformed. -/
def decodeNatChars : List Char → Option Nat
  | [] => none
  | c :: rest =>
    (parseDigits (c :: rest)).map (fun ds => Nat.ofDigits 10 ds.reverse)

theorem charDigit_digitChar (d : Nat) (h : d < 10) :
    charDigit (digitChar d) = some d := by
  interval_cases d <;> decide

theorem parseDigits_digitChars (ds : List Nat) (h : ∀ d ∈ ds, d < 10) :
    parseDigits (ds.map digitChar) = some ds := by
  induction ds with
  | nil => rfl
  | cons d rest ih =>
    have hd := charDigit_digitChar d (h d (by simp))
    have hrest := ih (fun x hx => h x (by simp [hx]))
    simp [parseDigits, hd, hrest]

theorem decodeNatChars_encodeNatChars (n : Nat) :
    decodeNatChars (encodeNatChars n) = some n := by
  by_cases h0 : n = 0
  · subst h0; decide
  · have hne : natDigits n ≠ [] := by
      rw [natDigits_eq]
      exact Nat.digits_ne_nil_iff_ne_zero.2 h0
    have hlt : ∀ d ∈ (natDigits n).reverse, d < 10 := by
      intro d hd
      rw [natDigits_eq] at hd
      exact Nat.digits_lt_base (by norm_num) (List.mem_reverse.1 hd)
    unfold encodeNatChars
    rw [if_neg h0]
    cases hcs : (natDigits n).reverse.map digitChar with
    | nil => simp [hne] at hcs
    | cons c cs =>
      unfold decodeNatChars
      show Option.map (fun ds => Nat.ofDigits 10 ds.reverse)
        (parseDigits (c :: cs)) = some n
      rw [← hcs, parseDigits_digitChars _ hlt]
      simp [natDigits_eq, Nat.ofDigits_digits]


/-- Modelled from the spec (section 6): encode an integer: optional
leading minus sign, then decimal digits. -/
def encodeIntChars (i : Int) : List Char :=
  if i < 0 then Char.ofNat 45 :: encodeNatChars i.natAbs
  else encodeNatChars i.natAbs

/-- Modelled from the spec (section 6): decode an integer string. -/
def decodeIntChars : List Char → Option Int
  | [] => none
  | c :: rest =>
    if c = Char.ofNat 45 then (decodeNatChars rest).map (fun n => -(Int.ofNat n))
    else (decodeNatChars (c :: rest)).map (fun n => Int.ofNat n)

theorem digitChar_ne_dash (d : Nat) (h : d < 10) :
    digitChar d ≠ Char.ofNat 45 := by
  interval_cases d <;> decide

theorem encodeNatChars_no_dash (n : Nat) :
    ∀ c ∈ encodeNatChars n, c ≠ Char.ofNat 45 := by
  intro c hc
  unfold encodeNatChars at hc
  by_cases h0 : n = 0
  · rw [if_pos h0] at hc
    simp only [List.mem_singleton] at hc
    subst hc
    decide
  · rw [if_neg h0] at hc
    simp only [List.mem_map, List.mem_reverse] at hc
    obtain ⟨d, hd, rfl⟩ := hc
    have hdlt : d < 10 := by
      rw [natDigits_eq] at hd
      exact Nat.digits_lt_base (by norm_num) hd
    exact digitChar_ne_dash d hdlt

theorem encodeNatChars_ne_nil (n : Nat) : encodeNatChars n ≠ [] := by
  unfold encodeNatChars
  by_cases h0 : n = 0
  · rw [if_pos h0]; simp
  · rw [if_neg h0]
    have hne : natDigits n ≠ [] := by
      rw [natDigits_eq]
      exact Nat.digits_ne_nil_iff_ne_zero.2 h0
    simp [hne]

theorem decodeIntChars_encodeIntChars (i : Int) :
    decodeIntChars (encodeIntChars i) = some i := by
  by_cases hneg : i < 0
  · unfold encodeIntChars
    rw [if_pos hneg]
    simp only [decodeIntChars]
    rw [if_pos trivial, decodeNatChars_encodeNatChars]
    have hi : Int.ofNat i.natAbs = -i := by
      show ((i.natAbs : Int)) = -i
      omega
    simp [hi, abs_of_neg hneg]
  · have h := decodeNatChars_encodeNatChars i.natAbs
    cases hcs : encodeNatChars i.natAbs with
    | nil => exact absurd hcs (encodeNatChars_ne_nil i.natAbs)
    | cons c cs =>
      have hdash : c ≠ Char.ofNat 45 :=
        encodeNatChars_no_dash i.natAbs c (by rw [hcs]; simp)
      unfold encodeIntChars
      rw [if_neg hneg, hcs]
      simp only [decodeIntChars]
      rw [if_neg hdash, ← hcs, h]
      have hi : Int.ofNat i.natAbs = i := by
        show ((i.natAbs : Int)) = i
        omega
      simp [hi]
      omega


/-- Modelled from the spec (section 6): the kinds with a defined
query-sync codec: integers and strings are trivial; composite and choice
kinds require explicit codecs and have no default one. -/
def hasCodec : Kind → Bool
  | .integer => true
  | .stringKind => true
  | _ => false

/-- Modelled from the spec (section 6): `encode(value) -> string` per
kind.  A None value of an allow-None integer attribute encodes as the
empty string (the query parameter is left blank). -/
def encode : Kind → Value → String
  | .integer, .vint i => String.mk (encodeIntChars i)
  | .integer, _ => ""
  | .stringKind, .vstr s => s
  | _, _ => ""

/-- Modelled from the spec (section 6): `decode(string) -> value or
DecodeError`; unknown or malformed strings decode to DecodeError. -/
def decode : Kind → String → Except PError Value
  | .integer, s =>
    (match s.data with
     | [] => .ok .vnone
     | c :: rest =>
       match decodeIntChars (c :: rest) with
       | some i => .ok (.vint i)
       | none => .error .decodeError)
  | .stringKind, s => .ok (.vstr s)
  | _, _ => .error .decodeError

/-- A value accepted by validation is either an allowed None on a
numeric kind or kind-compatible. -/
theorem validate_ok_shape (spec : AttributeSpec) (b : Bool) (v : Value)
    (h : validate spec b v = .ok ()) :
    (v = .vnone ∧ spec.default = .vnone ∧
       (spec.kind = .numeric ∨ spec.kind = .integer)) ∨
    (v ≠ .vnone ∧ kindOk spec.kind v = true) := by
  unfold validate at h
  split at h
  · exact absurd h (by simp)
  · split at h
    · split at h
      · rename_i hnone hdf
        simp only [Bool.and_eq_true, Bool.or_eq_true, beq_iff_eq,
          decide_eq_true_eq] at hdf
        exact Or.inl ⟨hnone, hdf.1, hdf.2⟩
      · exact absurd h (by simp)
    · split at h
      · exact absurd h (by simp)
      · rename_i hnone hk
        exact Or.inr ⟨hnone, by simpa using hk⟩

theorem encodeIntChars_ne_nil (i : Int) : encodeIntChars i ≠ [] := by
  unfold encodeIntChars
  by_cases hneg : i < 0
  · rw [if_pos hneg]; simp
  · rw [if_neg hneg]; exact encodeNatChars_ne_nil i.natAbs

theorem decode_encode_int (i : Int) :
    decode .integer (encode .integer (.vint i)) = .ok (.vint i) := by
  have h := decodeIntChars_encodeIntChars i
  cases hcs : encodeIntChars i with
  | nil => exact absurd hcs (encodeIntChars_ne_nil i)
  | cons c cs =>
    rw [hcs] at h
    have he : encode .integer (.vint i) = String.mk (c :: cs) := by
      show String.mk (encodeIntChars i) = String.mk (c :: cs)
      rw [hcs]
    rw [he]
    show (match decodeIntChars (c :: cs) with
      | some j => Except.ok (Value.vint j)
      | none => Except.error PError.decodeError) = Except.ok (Value.vint i)
    rw [h]

/-- C5: for every attribute kind with a defined query-sync codec, decode
is a left inverse of encode on valid values: for every value v that
satisfies the attribute's own validation, decode (encode v) = v. -/
theorem codec_decode_encode_roundtrip
    (spec : AttributeSpec) (b : Bool) (v : Value)
    (hcodec : hasCodec spec.kind = true)
    (hval : validate spec b v = .ok ()) :
    decode spec.kind (encode spec.kind v) = .ok v := by
  rcases validate_ok_shape spec b v hval with ⟨hv, _, hk⟩ | ⟨hv, hk⟩
  · subst hv
    rcases hk with hk | hk <;> rw [hk] at hcodec ⊢
    · exact absurd hcodec (by simp [hasCodec])
    · rfl
  · cases hkind : spec.kind <;> rw [hkind] at hcodec hk
    case integer =>
      cases v with
      | vint i => exact decode_encode_int i
      | vnone => exact absurd rfl hv
      | vnum q => simp [kindOk] at hk
      | vstr s => simp [kindOk] at hk
      | vbool bb => simp [kindOk] at hk
    case stringKind =>
      cases v with
      | vstr s => rfl
      | vnone => exact absurd rfl hv
      | vint i => simp [kindOk] at hk
      | vnum q => simp [kindOk] at hk
      | vbool bb => simp [kindOk] at hk
    all_goals exact absurd hcodec (by simp [hasCodec])

/-- Witness for C5 at the QueryExample integer attribute: 7 validates
on bounds (0, 10) and survives the round trip. -/
theorem codec_decode_encode_roundtrip_witness :
    hasCodec integerSpec.kind = true ∧
    validate integerSpec true (.vint 7) = .ok () ∧
    decode integerSpec.kind (encode integerSpec.kind (.vint 7)) = .ok (.vint 7) :=
  ⟨by decide, by rfl,
   codec_decode_encode_roundtrip integerSpec true (.vint 7) (by decide) (by rfl)⟩


/-- Modelled from the spec: one query-sync table entry, pairing an
attribute with an external string key (the codec is chosen by the
attribute's kind). -/
structure QuerySyncEntry where
  attr : Name
  key : String
  deriving DecidableEq, Repr

/-- Modelled from the spec (section 4.5): the external-to-instance
direction of the sync adapter, reacting to an externally written string
s for an entry.  The string is deserialized with the kind's codec and
stored through `set` (validated through 4.1); a malformed string decodes
to DecodeError and is ignored, and on any failure the instance is left
unchanged and the adapter does not overwrite the external value. -/
def onExternalChange (st : Store) (i : Inst) (e : QuerySyncEntry)
    (ext : List (String × String)) (s : String) :
    Inst × List (String × String) × Option PError :=
  match findSpec st e.attr with
  | none => (i, ext, some .validationError)
  | some spec =>
    match decode spec.kind s with
    | .error _ => (i, ext, some .decodeError)
    | .ok v =>
      match set st i e.attr v with
      | .error err => (i, ext, some err)
      | .ok (j, _) => (j, ext, none)

/-- C6: for every query-synced attribute, an external string the codec
cannot parse decodes to DecodeError and is ignored: the instance value
is left unchanged and the external value is not overwritten by the
instance; a parseable external string that passes validation is stored,
so the instance's `get` returns the decoded value. -/
theorem external_sync_decode_behavior
    (st : Store) (i : Inst) (e : QuerySyncEntry) (ext : List (String × String))
    (s : String) (spec : AttributeSpec)
    (hspec : findSpec st e.attr = some spec) :
    (∀ err, decode spec.kind s = .error err →
       onExternalChange st i e ext s = (i, ext, some .decodeError)) ∧
    (∀ v, decode spec.kind s = .ok v → validate spec i.constructed v = .ok () →
       (onExternalChange st i e ext s).2.2 = none ∧
       (onExternalChange st i e ext s).2.1 = ext ∧
       get st (onExternalChange st i e ext s).1 e.attr = some v) := by
  constructor
  · intro err hdec
    simp only [onExternalChange, hspec, hdec]
  · intro v hdec hval
    have hset := set_eq_ok st i e.attr v spec hspec hval
    simp only [onExternalChange, hspec, hdec, hset]
    refine ⟨trivial, trivial, ?_⟩
    unfold get
    simp only []
    rw [lookupVal_upsertVal_self]

/-- Witness for C6 at the QueryExample integer attribute synced to key
"int": the external string "abc" is rejected with no state change, and
the external string "7" is stored so that get returns 7. -/
theorem external_sync_decode_behavior_witness :
    onExternalChange queryStore qinst ⟨"integer", "int"⟩ [("int", "abc")] "abc" =
      (qinst, [("int", "abc")], some .decodeError) ∧
    ((onExternalChange queryStore qinst ⟨"integer", "int"⟩ [("int", "7")] "7").2.2 = none ∧
     get queryStore
       (onExternalChange queryStore qinst ⟨"integer", "int"⟩ [("int", "7")] "7").1
       "integer" = some (.vint 7)) := by
  have h := external_sync_decode_behavior queryStore qinst ⟨"integer", "int"⟩
    [("int", "abc")] "abc" integerSpec (by decide)
  have hg := external_sync_decode_behavior queryStore qinst ⟨"integer", "int"⟩
    [("int", "7")] "7" integerSpec (by decide)
  refine ⟨h.1 .decodeError (by rfl), ?_⟩
  have h2 := hg.2 (.vint 7) (by rfl) (by rfl)
  exact ⟨h2.1, h2.2.2⟩


/-- Modelled from the spec (section 4.1): one class-level attribute
declaration, as a partial spec: a field left `none` is inherited from
the ancestor's spec (child wins per-field, not per-spec wholesale). -/
structure SpecPatch where
  kindP : Option Kind := none
  defaultP : Option Value := none
  boundsP : Option (Option Rat × Option Rat) := none
  softBoundsP : Option (Option Rat × Option Rat) := none
  allowedValuesP : Option (Option (List Value)) := none
  constantP : Option Bool := none
  precedenceP : Option Rat := none
  docP : Option String := none
  deriving DecidableEq, Repr

/-- Modelled from the spec: merge a child declaration into the spec
inherited for the same attribute name: every field the child declares
wins, every other field keeps the ancestor's value; the name is the
attribute's identity and never changes. -/
def mergeSpec (base : AttributeSpec) (p : SpecPatch) : AttributeSpec :=
  { name := base.name
    kind := p.kindP.getD base.kind
    default := p.defaultP.getD base.default
    bounds := p.boundsP.getD base.bounds
    softBounds := p.softBoundsP.getD base.softBounds
    allowedValues := p.allowedValuesP.getD base.allowedValues
    constant := p.constantP.getD base.constant
    precedence := p.precedenceP.getD base.precedence
    doc := p.docP.getD base.doc }

/-- The spec a fresh declaration starts from when the attribute does not
exist in any ancestor. -/
def defaultSpec (n : Name) : AttributeSpec :=
  { name := n, kind := .generic, default := .vnone }

/-- Apply one declaration to a resolved spec list: merge into the
existing spec of the same name, or append a new one. -/
def upsertSpec : List AttributeSpec → Name → SpecPatch → List AttributeSpec
  | [], n, p => [mergeSpec (defaultSpec n) p]
  | s :: rest, n, p =>
    if s.name = n then mergeSpec s p :: rest else s :: upsertSpec rest n p

/-- Modelled from the spec (section 4.1): resolve one class given its
ancestors' already-resolved ordered spec list and its own declaration
list, in declaration order. -/
def resolveChild (parent : List AttributeSpec) :
    List (Name × SpecPatch) → List AttributeSpec
  | [] => parent
  | d :: rest => resolveChild (upsertSpec parent d.1 d.2) rest

/-- Modelled from the spec (section 4.1): `resolve(class)` folds the
declaration lists of the hierarchy, root first, each class merging its
overrides into the ancestors' resolved mapping. -/
def resolve (classes : List (List (Name × SpecPatch))) : List AttributeSpec :=
  classes.foldl resolveChild []

theorem mergeSpec_name (s : AttributeSpec) (p : SpecPatch) :
    (mergeSpec s p).name = s.name := rfl

theorem findSpecIn_upsertSpec_ne (m : List AttributeSpec) (k n : Name)
    (p : SpecPatch) (h : k ≠ n) :
    findSpecIn (upsertSpec m k p) n = findSpecIn m n := by
  have hnk : ¬ n = k := fun he => h he.symm
  induction m with
  | nil => simp [upsertSpec, findSpecIn, defaultSpec, mergeSpec, hnk, h]
  | cons s rest ih =>
    by_cases hs : s.name = k
    · simp [upsertSpec, hs, findSpecIn, mergeSpec_name, h, hnk]
    · by_cases hn : s.name = n
      · simp [upsertSpec, hs, findSpecIn, hn, hnk]
      · simp [upsertSpec, hs, findSpecIn, hn, hnk, ih]

theorem findSpecIn_upsertSpec_self (m : List AttributeSpec) (n : Name)
    (p : SpecPatch) (s : AttributeSpec) (h : findSpecIn m n = some s) :
    findSpecIn (upsertSpec m n p) n = some (mergeSpec s p) := by
  induction m with
  | nil => simp [findSpecIn] at h
  | cons t rest ih =>
    by_cases ht : t.name = n
    · simp only [findSpecIn, if_pos ht] at h
      obtain rfl := Option.some.injEq .. ▸ h
      simp [upsertSpec, ht, findSpecIn, mergeSpec_name]
    · simp only [findSpecIn, if_neg ht] at h
      simp [upsertSpec, ht, findSpecIn, ih h]

theorem resolveChild_not_declared (decls : List (Name × SpecPatch)) :
    ∀ parent n, n ∉ decls.map Prod.fst →
    findSpecIn (resolveChild parent decls) n = findSpecIn parent n := by
  induction decls with
  | nil => intro parent n _; rfl
  | cons d rest ih =>
    intro parent n hn
    simp only [List.map_cons, List.mem_cons] at hn
    push_neg at hn
    rw [resolveChild, ih (upsertSpec parent d.1 d.2) n hn.2,
      findSpecIn_upsertSpec_ne parent d.1 n d.2 (fun he => hn.1 he.symm)]

theorem resolveChild_declared (decls : List (Name × SpecPatch)) :
    ∀ parent n p s, (decls.map Prod.fst).Nodup → (n, p) ∈ decls →
    findSpecIn parent n = some s →
    findSpecIn (resolveChild parent decls) n = some (mergeSpec s p) := by
  induction decls with
  | nil => intro parent n p s _ hmem; exact absurd hmem (by simp)
  | cons d rest ih =>
    intro parent n p s hnd hmem hfind
    simp only [List.map_cons, List.nodup_cons] at hnd
    rcases List.mem_cons.1 hmem with heq | hrest
    · obtain rfl := heq.symm
      rw [resolveChild,
        resolveChild_not_declared rest (upsertSpec parent n p) n hnd.1,
        findSpecIn_upsertSpec_self parent n p s hfind]
    · have hdn : d.1 ≠ n := by
        intro he
        apply hnd.1
        rw [he]
        exact List.mem_map_of_mem Prod.fst hrest
      rw [resolveChild]
      exact ih (upsertSpec parent d.1 d.2) n p s hnd.2 hrest
        (by rw [findSpecIn_upsertSpec_ne parent d.1 n d.2 hdn]; exact hfind)

theorem upsertSpec_names (m : List AttributeSpec) (n : Name) (p : SpecPatch) :
    (upsertSpec m n p).map AttributeSpec.name =
      (if n ∈ m.map AttributeSpec.name then m.map AttributeSpec.name
       else m.map AttributeSpec.name ++ [n]) := by
  induction m with
  | nil => simp [upsertSpec, defaultSpec, mergeSpec]
  | cons s rest ih =>
    by_cases hs : s.name = n
    · simp [upsertSpec, hs, mergeSpec_name]
    · have hns : ¬ n = s.name := fun he => hs he.symm
      by_cases hmem : n ∈ rest.map AttributeSpec.name
      · simp [upsertSpec, hs, ih, hmem, hns]
      · simp [upsertSpec, hs, ih, hmem, hns]

theorem upsertSpec_nodup (m : List AttributeSpec) (n : Name) (p : SpecPatch)
    (h : (m.map AttributeSpec.name).Nodup) :
    ((upsertSpec m n p).map AttributeSpec.name).Nodup := by
  rw [upsertSpec_names]
  by_cases hmem : n ∈ m.map AttributeSpec.name
  · simpa [hmem] using h
  · simp only [hmem, if_false]
    refine List.Nodup.append h (List.nodup_singleton n) ?_
    intro a ha hb
    rw [List.mem_singleton] at hb
    subst hb
    exact hmem ha

theorem resolveChild_nodup (decls : List (Name × SpecPatch)) :
    ∀ parent, (parent.map AttributeSpec.name).Nodup →
    ((resolveChild parent decls).map AttributeSpec.name).Nodup := by
  induction decls with
  | nil => intro parent h; exact h
  | cons d rest ih =>
    intro parent h
    rw [resolveChild]
    exact ih (upsertSpec parent d.1 d.2) (upsertSpec_nodup parent d.1 d.2 h)

/-- C7: `resolve` merges ancestor AttributeSpecs with child overrides
per-field: an attribute redeclared in a subclass takes the subclass's
declared fields (undeclared fields keep the ancestor's), an attribute
not redeclared keeps the ancestor's spec unchanged, and attribute
identity is the name, unique within the resolved hierarchy. -/
theorem resolve_merges_child_overrides
    (parent : List AttributeSpec) (decls : List (Name × SpecPatch)) (n : Name) :
    (n ∉ decls.map Prod.fst →
       findSpecIn (resolveChild parent decls) n = findSpecIn parent n) ∧
    (∀ p s, (decls.map Prod.fst).Nodup → (n, p) ∈ decls →
       findSpecIn parent n = some s →
       findSpecIn (resolveChild parent decls) n = some (mergeSpec s p)) ∧
    ((parent.map AttributeSpec.name).Nodup →
       ((resolveChild parent decls).map AttributeSpec.name).Nodup) ∧
    (∀ s p, (mergeSpec s p).name = s.name ∧
       (mergeSpec s p).kind = p.kindP.getD s.kind ∧
       (mergeSpec s p).default = p.defaultP.getD s.default ∧
       (mergeSpec s p).bounds = p.boundsP.getD s.bounds ∧
       (mergeSpec s p).constant = p.constantP.getD s.constant ∧
       (mergeSpec s p).precedence = p.precedenceP.getD s.precedence) :=
  ⟨fun h => resolveChild_not_declared decls parent n h,
   fun p s hnd hmem hf => resolveChild_declared decls parent n p s hnd hmem hf,
   fun h => resolveChild_nodup decls parent h,
   fun _ _ => ⟨rfl, rfl, rfl, rfl, rfl, rfl⟩⟩

/-- The resolved specs of the Circle class in Param.ipynb:
`radius = param.Number(default=1, bounds=(0, 1))` and
`n = param.Integer(default=100, precedence=-1)`. -/
def circleSpecs : List AttributeSpec :=
  [{ name := "radius", kind := .numeric, default := .vnum 1,
     bounds := (some 0, some 1) },
   { name := "n", kind := .integer, default := .vint 100, precedence := -1 }]

/-- The NGon redeclaration of `n` in Param.ipynb:
`n = param.Integer(default=3, bounds=(3, 10), precedence=1)`. -/
def ngonPatch : SpecPatch :=
  { kindP := some .integer, defaultP := some (.vint 3),
    boundsP := some (some 3, some 10), precedenceP := some 1 }

/-- The declaration list of the NGon subclass in Param.ipynb. -/
def ngonDecls : List (Name × SpecPatch) := [("n", ngonPatch)]

/-- The Circle spec of `n` that NGon overrides. -/
def circleN : AttributeSpec :=
  { name := "n", kind := .integer, default := .vint 100, precedence := -1 }

/-- Witness for C7 at the Circle/NGon hierarchy: the redeclared `n`
takes NGon's default, bounds and precedence, while the inherited
`radius` keeps Circle's spec. -/
theorem resolve_merges_child_overrides_witness :
    findSpecIn (resolveChild circleSpecs ngonDecls) "n" =
      some { name := "n", kind := .integer, default := .vint 3,
             bounds := (some 3, some 10), precedence := 1 } ∧
    findSpecIn (resolveChild circleSpecs ngonDecls) "radius" =
      some { name := "radius", kind := .numeric, default := .vnum 1,
             bounds := (some 0, some 1) } := by
  have h := resolve_merges_child_overrides circleSpecs ngonDecls "n"
  have hr := resolve_merges_child_overrides circleSpecs ngonDecls "radius"
  refine ⟨?_, ?_⟩
  · rw [h.2.1 ngonPatch circleN (by decide) (by decide) (by decide)]
    decide
  · rw [hr.1 (by decide)]
    decide


/-- Modelled from the spec (section 4.4): the closed set of control
kinds the Widget Binding Layer can instantiate. -/
inductive ControlKind where
  | slider
  | numericEntry
  | textEntry
  | checkbox
  | selector
  | multiSelector
  | button
  | datePicker
  | compositePane
  | genericInput
  deriving DecidableEq, Repr

/-- Modelled from the spec (section 4.4): the mapping table from
AttributeSpec kind to the default control kind: bounded numeric gives a
slider with the spec's bounds, unbounded numeric a free-text numeric
entry, choice-from-set a selector, multi-choice a multi-selector, and
action a triggerable button. -/
def defaultControl (spec : AttributeSpec) : ControlKind :=
  match spec.kind with
  | .numeric =>
    if spec.bounds.1.isSome && spec.bounds.2.isSome then .slider
    else .numericEntry
  | .integer =>
    if spec.bounds.1.isSome && spec.bounds.2.isSome then .slider
    else .numericEntry
  | .stringKind => .textEntry
  | .boolean => .checkbox
  | .choice => .selector
  | .multiChoice => .multiSelector
  | .action => .button
  | .date => .datePicker
  | .composite => .compositePane
  | _ => .genericInput

/-- Modelled from the spec (section 4.4): the only control kind that can
be triggered is the button. -/
def isTriggerable (c : ControlKind) : Bool := c == ControlKind.button

/-- Modelled from the spec (section 4.4): triggering a control invokes
the attribute's associated zero-argument callable, applied to no
arguments; non-triggerable controls cannot be triggered. -/
def triggerControl {α : Type} (c : ControlKind) (cb : Unit → α) : Option α :=
  if c = ControlKind.button then some (cb ()) else none

/-- C8: for every action-kind attribute, the default control selected by
the Widget Binding Layer is a triggerable button, and triggering it
invokes the attribute's associated zero-argument callable, calling it
with no arguments. -/
theorem action_default_control_button
    (spec : AttributeSpec) (hk : spec.kind = .action) :
    defaultControl spec = .button ∧
    isTriggerable (defaultControl spec) = true ∧
    ∀ (α : Type) (cb : Unit → α),
      triggerControl (defaultControl spec) cb = some (cb ()) := by
  have hb : defaultControl spec = .button := by
    unfold defaultControl
    rw [hk]
  refine ⟨hb, by rw [hb]; rfl, ?_⟩
  intro α cb
  rw [hb]
  rfl

/-- The spec of Example.record_timestamp in Param.ipynb:
`record_timestamp = param.Action(..., precedence=0.7)`, whose callable
appends a timestamp. -/
def recordTimestampSpec : AttributeSpec :=
  { name := "record_timestamp", kind := .action, default := .vnone,
    precedence := (7 : Rat) / 10 }

/-- Witness for C8 at the record_timestamp action: its default control
is the button and triggering runs the callable on no arguments. -/
theorem action_default_control_button_witness :
    defaultControl recordTimestampSpec = .button ∧
    triggerControl (defaultControl recordTimestampSpec)
      (fun _ => ([42] : List Nat)) = some [42] := by
  have h := action_default_control_button recordTimestampSpec rfl
  exact ⟨h.1, h.2.2 (List Nat) (fun _ => [42])⟩

/-- Modelled from the spec (section 4.4): the state of one widget
binding: the bound attribute and the last value the binding itself
pushed into the control, used to suppress the control echoing that value
back (compared by value equality). -/
structure BindingHandle where
  attr : Name
  lastPushed : Option Value
  deriving DecidableEq, Repr

/-- Modelled from the spec (section 4.4): instance-to-control push: the
eager watcher writes the new value into the control's display state and
records it as the last pushed value. -/
def pushToControl (b : BindingHandle) (v : Value) : BindingHandle × Value :=
  ({ b with lastPushed := some v }, v)

/-- Modelled from the spec (section 4.4): a control-originated delivery.
If the incoming value equals (by value equality) the value the binding
itself last pushed, propagation is suppressed: no store set happens, no
change event is emitted, nothing is dispatched.  Otherwise the value is
written through the store and the emitted change event is returned for
dispatch. -/
def controlOriginated (st : Store) (i : Inst) (b : BindingHandle) (v : Value) :
    Inst × BindingHandle × Option ChangeEvent × Option PError :=
  if b.lastPushed = some v then (i, b, none, none)
  else
    match set st i b.attr v with
    | .ok (j, ev) => (j, b, some ev, none)
    | .error e => (i, b, none, some e)

/-- Modelled from the spec (section 4.3): a registered watcher: identity,
ordered source attribute set, eager flag (watch=True) and the callback,
which may itself perform further attribute writes (returned as a write
list computed from the current values). -/
structure Watcher where
  id : Nat
  sources : List Name
  eager : Bool
  callback : (Name → Value) → List (Name × Value)

/-- The outcome of dispatching a batch: the final attribute values, the
accumulated set of watchers already fired in the enclosing top-level
batch, and the firing log in dispatch order. -/
structure BatchOut where
  vals : Name → Value
  fired : List Nat
  log : List Nat

/-- Apply a list of queued writes to the value map, later writes winning. -/
def applyWrites (vals : Name → Value) (writes : List (Name × Value)) :
    Name → Value :=
  writes.foldl (fun f p => fun m => if m = p.1 then p.2 else f m) vals

/-- Modelled from the spec (section 4.3, step 3): the watchers matched by
a batch: eager watchers whose source set intersects the changed set, in
registration order. -/
def matchedWatchers (ws : List Watcher) (changed : List Name) : List Watcher :=
  ws.filter (fun w => w.eager && w.sources.any (fun s => decide (s ∈ changed)))

/-- Modelled from the spec (section 4.3, steps 4 and 5): fire a queue of
matched watchers in order.  A watcher already fired in this top-level
batch is skipped (no duplicate delivery); otherwise it is logged, its
callback's writes are dispatched as a nested batch (runNested) that
completes before the queue continues, and the queue resumes on the
nested batch's state. -/
def fireQueue
    (runNested : (Name → Value) → List Nat → List (Name × Value) → BatchOut) :
    List Watcher → (Name → Value) → List Nat → BatchOut
  | [], vals, fired => ⟨vals, fired, []⟩
  | w :: queue, vals, fired =>
    if w.id ∈ fired then fireQueue runNested queue vals fired
    else
      let nested := runNested vals (w.id :: fired) (w.callback vals)
      let rest := fireQueue runNested queue nested.vals nested.fired
      ⟨rest.vals, rest.fired, (w.id :: nested.log) ++ rest.log⟩

/-- Modelled from the spec (section 4.3): run one batch: apply the queued
writes, compute the set of distinct changed names and the matched
watchers, and fire each exactly once, nested batches dispatching
depth-first with the fuel bounding the nesting depth. -/
def runBatch (ws : List Watcher) :
    Nat → (Name → Value) → List Nat → List (Name × Value) → BatchOut
  | 0, vals, fired, writes => ⟨applyWrites vals writes, fired, []⟩
  | fuel + 1, vals, fired, writes =>
    fireQueue (fun v f wr => runBatch ws fuel v f wr)
      (matchedWatchers ws ((writes.map Prod.fst).dedup))
      (applyWrites vals writes) fired

/-- Modelled from the spec (section 4.3): a top-level batch starts with
no watcher fired yet; since every firing consumes one distinct watcher,
a fuel of one more than the number of watchers never runs out. -/
def topBatch (ws : List Watcher) (vals : Name → Value)
    (writes : List (Name × Value)) : BatchOut :=
  runBatch ws (ws.length + 1) vals [] writes

theorem fireQueue_fired
    (runNested : (Name → Value) → List Nat → List (Name × Value) → BatchOut)
    (hrn : ∀ vals fired writes, (runNested vals fired writes).fired =
      (runNested vals fired writes).log.reverse ++ fired)
    (queue : List Watcher) :
    ∀ vals fired, (fireQueue runNested queue vals fired).fired =
      (fireQueue runNested queue vals fired).log.reverse ++ fired := by
  induction queue with
  | nil => intro vals fired; rfl
  | cons w rest ih =>
    intro vals fired
    by_cases hw : w.id ∈ fired
    · simp [fireQueue, hw, ih]
    · simp only [fireQueue, if_neg hw]
      rw [ih, hrn]
      simp [List.append_assoc]

theorem runBatch_fired (ws : List Watcher) (fuel : Nat) :
    ∀ vals fired writes, (runBatch ws fuel vals fired writes).fired =
      (runBatch ws fuel vals fired writes).log.reverse ++ fired := by
  induction fuel with
  | zero => intro vals fired writes; rfl
  | succ f ih =>
    intro vals fired writes
    exact fireQueue_fired (fun v fr wr => runBatch ws f v fr wr)
      (fun v fr wr => ih v fr wr) _ _ _

theorem fireQueue_nodup
    (runNested : (Name → Value) → List Nat → List (Name × Value) → BatchOut)
    (hrn : ∀ vals fired writes, fired.Nodup →
      (runNested vals fired writes).fired.Nodup)
    (queue : List Watcher) :
    ∀ vals fired, fired.Nodup →
      (fireQueue runNested queue vals fired).fired.Nodup := by
  induction queue with
  | nil => intro vals fired h; exact h
  | cons w rest ih =>
    intro vals fired h
    by_cases hw : w.id ∈ fired
    · simp only [fireQueue, if_pos hw]
      exact ih vals fired h
    · simp only [fireQueue, if_neg hw]
      exact ih _ _ (hrn _ _ _ (List.nodup_cons.2 ⟨hw, h⟩))

theorem runBatch_nodup (ws : List Watcher) (fuel : Nat) :
    ∀ vals fired writes, fired.Nodup →
      (runBatch ws fuel vals fired writes).fired.Nodup := by
  induction fuel with
  | zero => intro vals fired writes h; exact h
  | succ f ih =>
    intro vals fired writes h
    exact fireQueue_nodup (fun v fr wr => runBatch ws f v fr wr)
      (fun v fr wr => ih v fr wr) _ _ _ h

theorem fireQueue_mono
    (runNested : (Name → Value) → List Nat → List (Name × Value) → BatchOut)
    (hrn : ∀ vals fired writes, (runNested vals fired writes).fired =
      (runNested vals fired writes).log.reverse ++ fired)
    (queue : List Watcher) (vals : Name → Value) (fired : List Nat)
    (x : Nat) (hx : x ∈ fired) :
    x ∈ (fireQueue runNested queue vals fired).fired := by
  rw [fireQueue_fired runNested hrn queue vals fired]
  exact List.mem_append_right _ hx

theorem fireQueue_mem
    (runNested : (Name → Value) → List Nat → List (Name × Value) → BatchOut)
    (hrn : ∀ vals fired writes, (runNested vals fired writes).fired =
      (runNested vals fired writes).log.reverse ++ fired)
    (queue : List Watcher) :
    ∀ vals fired (w : Watcher), w ∈ queue →
      w.id ∈ (fireQueue runNested queue vals fired).fired := by
  induction queue with
  | nil => intro vals fired w hw; exact absurd hw (by simp)
  | cons u rest ih =>
    intro vals fired w hw
    by_cases hu : u.id ∈ fired
    · simp only [fireQueue, if_pos hu]
      rcases List.mem_cons.1 hw with heq | hrest
      · exact fireQueue_mono runNested hrn rest vals fired w.id (heq ▸ hu)
      · exact ih vals fired w hrest
    · simp only [fireQueue, if_neg hu]
      rcases List.mem_cons.1 hw with heq | hrest
      · apply fireQueue_mono runNested hrn
        rw [hrn]
        apply List.mem_append_right
        rw [heq]
        exact List.mem_cons_self u.id _
      · exact ih _ _ w hrest

/-- C1: for every eager watcher (watch=True) with N declared source
attributes, a batch changing M of them (1 <= M <= N) fires the watcher's
callback exactly once; writes the callback performs are dispatched in a
nested batch completing before control returns (structural in fireQueue)
and cannot make the same watcher fire a second time within the top-level
batch, whatever the callback writes. -/
theorem eager_watcher_fires_exactly_once
    (ws : List Watcher) (w : Watcher) (hw : w ∈ ws) (he : w.eager = true)
    (vals : Name → Value) (writes : List (Name × Value))
    (hM : ∃ n, n ∈ writes.map Prod.fst ∧ n ∈ w.sources) :
    (topBatch ws vals writes).log.count w.id = 1 := by
  have hmatch : w ∈ matchedWatchers ws ((writes.map Prod.fst).dedup) := by
    rw [matchedWatchers, List.mem_filter]
    obtain ⟨n, hn, hns⟩ := hM
    refine ⟨hw, ?_⟩
    rw [he, Bool.true_and, List.any_eq_true]
    exact ⟨n, hns, by simp [List.mem_dedup, hn]⟩
  have hrnA := fun v fr wr => runBatch_fired ws ws.length v fr wr
  have hrnN := fun v fr wr => runBatch_nodup ws ws.length v fr wr
  have hfired : w.id ∈ (topBatch ws vals writes).fired :=
    fireQueue_mem (fun v f wr => runBatch ws ws.length v f wr) hrnA
      (matchedWatchers ws ((writes.map Prod.fst).dedup))
      (applyWrites vals writes) [] w hmatch
  have hacc : (topBatch ws vals writes).fired =
      (topBatch ws vals writes).log.reverse ++ [] :=
    fireQueue_fired (fun v f wr => runBatch ws ws.length v f wr) hrnA
      (matchedWatchers ws ((writes.map Prod.fst).dedup))
      (applyWrites vals writes) []
  have hnd : (topBatch ws vals writes).fired.Nodup :=
    fireQueue_nodup (fun v f wr => runBatch ws ws.length v f wr) hrnN
      (matchedWatchers ws ((writes.map Prod.fst).dedup))
      (applyWrites vals writes) [] List.nodup_nil
  rw [hacc] at hfired hnd
  simp only [List.append_nil] at hfired hnd
  have hmem : w.id ∈ (topBatch ws vals writes).log := List.mem_reverse.1 hfired
  have hlognd : (topBatch ws vals writes).log.Nodup := List.nodup_reverse.1 hnd
  exact List.count_eq_one_of_mem hlognd hmem

/-- The NGon update watcher of Param.ipynb: one eager watcher on both
radius and n, whose callback performs a further write. -/
def updateWatcher : Watcher :=
  { id := 0, sources := ["radius", "n"], eager := true,
    callback := fun _ => [("drawn", Value.vbool true)] }

/-- An eager watcher downstream of the update watcher's own write. -/
def drawnWatcher : Watcher :=
  { id := 1, sources := ["drawn"], eager := true, callback := fun _ => [] }

/-- Witness for C1 at the NGon scenario: one batch changing both radius
and n (M = N = 2) fires the update watcher exactly once, even though its
callback writes another watched attribute. -/
theorem eager_watcher_fires_exactly_once_witness :
    (topBatch [updateWatcher, drawnWatcher] (fun _ => Value.vnone)
       [("radius", Value.vnum 2), ("n", Value.vint 5)]).log.count 0 = 1 :=
  eager_watcher_fires_exactly_once [updateWatcher, drawnWatcher]
    updateWatcher (List.mem_cons_self updateWatcher [drawnWatcher]) rfl
    (fun _ => Value.vnone) [("radius", Value.vnum 2), ("n", Value.vint 5)]
    ⟨"radius", by decide, by decide⟩

/-- C4: after a binding pushes value v to its control, a
control-originated delivery of a value equal to v (value equality, not
identity) is suppressed: it performs no store set, changes no instance
value, emits no change event, and reports no error, so an
instance-to-control push followed by the control echoing the same value
back never re-triggers propagation; and a batch with no writes fires no
watcher, so the suppressed delivery dispatches no watcher. -/
theorem binding_echo_suppressed
    (st : Store) (i : Inst) (b : BindingHandle) (v : Value) :
    controlOriginated st i (pushToControl b v).1 v =
      (i, (pushToControl b v).1, none, none) ∧
    (∀ (ws : List Watcher) (fuel : Nat) (vals : Name → Value)
       (fired : List Nat), (runBatch ws fuel vals fired []).log = []) := by
  constructor
  · unfold pushToControl controlOriginated
    simp
  · intro ws fuel vals fired
    cases fuel with
    | zero => rfl
    | succ f =>
      have hm : matchedWatchers ws (([] : List (Name × Value)).map Prod.fst).dedup = [] := by
        unfold matchedWatchers
        rw [List.filter_eq_nil_iff]
        intro w _
        simp
      rw [runBatch, hm]
      rfl

end PanelSpec
